import Mathlib

/-!
Shallow embedding of `src/main.py` (TechCrunch news bot).

The program polls an RSS feed, filters entries by category tags against a
fixed allowed set, and forwards links to a chat API, tracking the timestamp
of the last successfully delivered entry (`last_sent_article_date`) in order
to avoid resending.  Network effects (the Telegram send, the feed fetch) are
modelled by oracles passed in as parameters; sleeps are modelled by counting
pacing delays and by recording which sleep duration follows a cycle.

Timestamps are modelled as `Int` (UTC epoch seconds); `feedparser` tag
dictionaries are modelled by the `Tag` inductive; the HTML sanitizer
`clean_html` (BeautifulSoup + html.escape, an external library) is a
parameter `ch : String → String` of every definition that uses it.
-/

namespace TCBot

/-- A feed entry tag as produced by feedparser: either a dict with a
`term` key, a dict without one, or a non-dict value (`main.py` line 65
checks `isinstance(tag, dict) and 'term' in tag`). -/
inductive Tag where
  | dictWithTerm (term : String)
  | dictNoTerm
  | nonDict
deriving DecidableEq

/-- A parsed feed entry: `title`, `link`, `published_parsed` (the publication
date converted to a UTC timestamp; `none` when the entry has no parseable
date, in which case line 82 of `main.py` raises), and the optional tag list
(`entry.get('tags', [])`, line 64). -/
structure Entry where
  title : String
  link : String
  published_parsed : Option Int
  tags : Option (List Tag)
deriving DecidableEq

/-- Outcome of one Telegram send (`send_telegram_message`): the API answered
with `ok` true, the API answered with `ok` false, or the request raised. -/
inductive SendResult where
  | ok
  | apiFail
  | transportError
deriving DecidableEq

/-- A delivery attempt observed during a cycle: the entry, its parsed date,
and the result of the send call. -/
structure Attempt where
  entry : Entry
  date : Int
  result : SendResult
deriving DecidableEq

/-- The mutable state consulted by the per-entry loop body:
`last_sent_article_date` (the watermark) and the cycle-local
`found_interested` flag. -/
structure LoopState where
  watermark : Option Int
  foundInterested : Bool
deriving DecidableEq

/-- Result of running (part of) the per-entry loop: final state, the
delivery attempts made in order, whether an uncaught exception escaped
(a missing publication date), and how many 60-second pacing sleeps ran. -/
structure CycleResult where
  st : LoopState
  attempts : List Attempt
  crashed : Bool
  paces : Nat
deriving DecidableEq

/-- Result of one whole `fetch_and_send_news` call. -/
structure CycleOutcome where
  watermark : Option Int
  attempts : List Attempt
  crashed : Bool
  paces : Nat
deriving DecidableEq

/-- `INTERESTED_CATEGORIES` (lines 31–39). -/
def INTERESTED_CATEGORIES : Finset String :=
  {"AI", "Robotics", "Tech Startups", "Biotech & Health", "Enterprise",
   "Security", "Privacy"}

/-- `last_sent_article_date = None` (line 41): the watermark at process
start. -/
def last_sent_article_date_init : Option Int := none

/-- The 5-minute sleep between cycles (line 127). -/
def CYCLE_SLEEP : Nat := 300

/-- The 1-minute sleep after an error caught in `run_bot` (line 130). -/
def ERROR_SLEEP : Nat := 60

/-- The 1-minute pacing sleep after each send attempt (lines 100, 115). -/
def PACING_SLEEP : Nat := 60

/-- `get_categories` (lines 61–67): the set of sanitized `term` values of
those tags that are dicts containing a `term` key. -/
def get_categories (ch : String → String) (e : Entry) : Finset String :=
  ((e.tags.getD []).filterMap fun t =>
    match t with
    | Tag.dictWithTerm s => some (ch s)
    | Tag.dictNoTerm => none
    | Tag.nonDict => none).toFinset

/-- The category gate (line 88): truthiness of
`categories.intersection(INTERESTED_CATEGORIES)`. -/
def is_interesting (cats ints : Finset String) : Bool :=
  decide (cats ∩ ints ≠ ∅)

/-- The timestamp guard (line 84):
`last_sent_article_date is None or entry_date > last_sent_article_date`. -/
def timestampEligible : Option Int → Int → Bool
  | none, _ => true
  | some w, d => decide (d > w)

/-- The body of the main per-entry loop (lines 81–100) for one entry:
compute the date (raising when absent), apply the timestamp guard, the
category gate, and on a match attempt the send, advancing the watermark
only on an acknowledged success; every attempt is followed by one pacing
sleep. -/
def processEntry (ch : String → String) (ints : Finset String)
    (send : Entry → SendResult) (st : LoopState) (e : Entry) : CycleResult :=
  match e.published_parsed with
  | none => ⟨st, [], true, 0⟩
  | some d =>
    if timestampEligible st.watermark d then
      if is_interesting (get_categories ch e) ints then
        let res := send e
        ⟨⟨if res = SendResult.ok then some d else st.watermark, true⟩,
          [⟨e, d, res⟩], false, 1⟩
      else ⟨st, [], false, 0⟩
    else ⟨st, [], false, 0⟩

/-- The main per-entry loop (lines 81–100) over a list of entries (already
reversed to oldest-first).  A crash in one entry stops the iteration. -/
def processAll (ch : String → String) (ints : Finset String)
    (send : Entry → SendResult) : List Entry → LoopState → CycleResult
  | [], st => ⟨st, [], false, 0⟩
  | e :: rest, st =>
    let r1 := processEntry ch ints send st e
    if r1.crashed then r1
    else
      let out := processAll ch ints send rest r1.st
      ⟨out.st, r1.attempts ++ out.attempts, out.crashed, r1.paces + out.paces⟩

/-- The cold-start fallback loop (lines 104–116): iterate the reversed list
but `break` after the first entry — send it unconditionally, advance the
watermark on acknowledged success, sleep once.  The date conversion at
line 105 is outside the `try`, so a missing date raises. -/
def fallback_send (send : Entry → SendResult) (r : List Entry)
    (st : LoopState) : CycleResult :=
  match r with
  | [] => ⟨st, [], false, 0⟩
  | e :: _ =>
    match e.published_parsed with
    | none => ⟨st, [], true, 0⟩
    | some d =>
      let res := send e
      ⟨⟨if res = SendResult.ok then some d else st.watermark,
        st.foundInterested⟩, [⟨e, d, res⟩], false, 1⟩

/-- `fetch_and_send_news` (lines 69–118) after the feed has been fetched and
parsed into `entries` (in original feed order, assumed newest-first): the
empty-feed branch logs and returns; otherwise the main loop runs on
`entries.reverse`, and when no interesting entry was found and the watermark
is still unset the fallback loop runs. -/
def fetch_and_send_news (ch : String → String) (ints : Finset String)
    (send : Entry → SendResult) (entries : List Entry)
    (w₀ : Option Int) : CycleOutcome :=
  if entries.isEmpty then ⟨w₀, [], false, 0⟩
  else
    let main := processAll ch ints send entries.reverse ⟨w₀, false⟩
    if main.crashed then ⟨main.st.watermark, main.attempts, true, main.paces⟩
    else if !main.st.foundInterested && main.st.watermark.isNone then
      let fb := fallback_send send entries.reverse main.st
      ⟨fb.st.watermark, main.attempts ++ fb.attempts, fb.crashed,
        main.paces + fb.paces⟩
    else ⟨main.st.watermark, main.attempts, false, main.paces⟩

/-- What one iteration of `run_bot` observes from outside: either the fetch
(or feed download) raised, or it produced a list of parsed entries. -/
inductive FetchOutcome where
  | fetchError
  | entries (l : List Entry)

/-- The inputs one `run_bot` iteration depends on: the sanitizer, the
allowed set, the send oracle and the fetch outcome. -/
structure RunInput where
  cleanHtml : String → String
  interested : Finset String
  send : Entry → SendResult
  fetch : FetchOutcome

/-- One iteration of the `while True` body of `run_bot` (lines 123–130):
run `fetch_and_send_news`; an exception anywhere (fetch failure or a
crashing entry) is caught and followed by the 60-second error sleep,
otherwise the 300-second cycle sleep runs.  Returns the next watermark and
which sleep was taken. -/
def run_bot_step (inp : RunInput) (w : Option Int) : Option Int × Nat :=
  match inp.fetch with
  | FetchOutcome.fetchError => (w, ERROR_SLEEP)
  | FetchOutcome.entries l =>
    let out := fetch_and_send_news inp.cleanHtml inp.interested inp.send l w
    (out.watermark, if out.crashed then ERROR_SLEEP else CYCLE_SLEEP)

/-- Iterating `run_bot` over a sequence of cycles, threading the watermark. -/
def run_bot_iter : List RunInput → Option Int → Option Int
  | [], w => w
  | inp :: rest, w => run_bot_iter rest (run_bot_step inp w).1

/-- The date of an entry, defaulting to `0` (used only under a hypothesis
that the date is present). -/
def dOf (e : Entry) : Int := (e.published_parsed).getD 0

/-- The condition under which the main loop attempts an entry, relative to a
fixed watermark `w`: a parseable date that passes the timestamp guard
against `w`, and an allowed category. -/
def elig (ch : String → String) (ints : Finset String) (w : Option Int)
    (e : Entry) : Bool :=
  match e.published_parsed with
  | none => false
  | some d => timestampEligible w d && is_interesting (get_categories ch e) ints

/-- Replaying a list of attempts over a watermark: each acknowledged success
overwrites the watermark with the attempt's date. -/
def wmAfter (w : Option Int) (atts : List Attempt) : Option Int :=
  atts.foldl (fun w a => if a.result = SendResult.ok then some a.date else w) w

/-- Order on watermarks: `none` is below everything; two set watermarks
compare by their timestamps. -/
def wLE : Option Int → Option Int → Bool
  | none, _ => true
  | some _, none => false
  | some a, some b => decide (a ≤ b)

/-! ### Basic lemmas about the watermark order -/

lemma wLE_refl (w : Option Int) : wLE w w = true := by
  cases w <;> simp [wLE]

lemma wLE_trans {a b c : Option Int} (h1 : wLE a b = true)
    (h2 : wLE b c = true) : wLE a c = true := by
  cases a <;> cases b <;> cases c <;> simp_all [wLE]
  omega

lemma wLE_none_left (w : Option Int) : wLE none w = true := rfl

lemma eq_none_of_wLE_none {w : Option Int} (h : wLE w none = true) :
    w = none := by
  cases w <;> simp_all [wLE]

lemma wLE_some_dest {a : Int} {w : Option Int}
    (h : wLE (some a) w = true) : ∃ b, w = some b ∧ a ≤ b := by
  cases w with
  | none => simp [wLE] at h
  | some b => exact ⟨b, rfl, by simpa [wLE] using h⟩

/-! ### The watermark as a replay of the attempt list -/

lemma wmAfter_nil (w : Option Int) : wmAfter w [] = w := rfl

lemma wmAfter_cons (w : Option Int) (a : Attempt) (atts : List Attempt) :
    wmAfter w (a :: atts)
      = wmAfter (if a.result = SendResult.ok then some a.date else w) atts :=
  rfl

lemma wmAfter_append (w : Option Int) (xs ys : List Attempt) :
    wmAfter w (xs ++ ys) = wmAfter (wmAfter w xs) ys := by
  simp [wmAfter, List.foldl_append]

/-- The watermark produced by `processEntry` is the initial watermark with
the attempts replayed over it. -/
lemma processEntry_watermark (ch : String → String) (ints : Finset String)
    (send : Entry → SendResult) (st : LoopState) (e : Entry) :
    (processEntry ch ints send st e).st.watermark
      = wmAfter st.watermark (processEntry ch ints send st e).attempts := by
  unfold processEntry
  cases e.published_parsed with
  | none => rfl
  | some d =>
    by_cases h1 : timestampEligible st.watermark d
    · by_cases h2 : is_interesting (get_categories ch e) ints
      · simp [h1, h2, wmAfter]
      · simp [h1, h2, wmAfter]
    · simp [h1, wmAfter]

/-- Unfolding equation for `processAll` on a cons cell. -/
lemma processAll_cons (ch : String → String) (ints : Finset String)
    (send : Entry → SendResult) (e : Entry) (rest : List Entry)
    (st : LoopState) :
    processAll ch ints send (e :: rest) st
      = (if (processEntry ch ints send st e).crashed then
            processEntry ch ints send st e
         else
            ⟨(processAll ch ints send rest (processEntry ch ints send st e).st).st,
             (processEntry ch ints send st e).attempts
               ++ (processAll ch ints send rest (processEntry ch ints send st e).st).attempts,
             (processAll ch ints send rest (processEntry ch ints send st e).st).crashed,
             (processEntry ch ints send st e).paces
               + (processAll ch ints send rest (processEntry ch ints send st e).st).paces⟩) :=
  rfl

/-- Unfolding equation for `fetch_and_send_news` on a non-empty feed that
does not crash: the main pass, then possibly the fallback. -/
lemma fetch_unfold (ch : String → String) (ints : Finset String)
    (send : Entry → SendResult) (entries : List Entry) (w₀ : Option Int)
    (he : entries.isEmpty = false)
    (hc : (processAll ch ints send entries.reverse ⟨w₀, false⟩).crashed = false) :
    fetch_and_send_news ch ints send entries w₀
      = (if (!(processAll ch ints send entries.reverse ⟨w₀, false⟩).st.foundInterested
             && (processAll ch ints send entries.reverse ⟨w₀, false⟩).st.watermark.isNone) then
           ⟨(fallback_send send entries.reverse
               (processAll ch ints send entries.reverse ⟨w₀, false⟩).st).st.watermark,
            (processAll ch ints send entries.reverse ⟨w₀, false⟩).attempts
              ++ (fallback_send send entries.reverse
                    (processAll ch ints send entries.reverse ⟨w₀, false⟩).st).attempts,
            (fallback_send send entries.reverse
               (processAll ch ints send entries.reverse ⟨w₀, false⟩).st).crashed,
            (processAll ch ints send entries.reverse ⟨w₀, false⟩).paces
              + (fallback_send send entries.reverse
                   (processAll ch ints send entries.reverse ⟨w₀, false⟩).st).paces⟩
         else
           ⟨(processAll ch ints send entries.reverse ⟨w₀, false⟩).st.watermark,
            (processAll ch ints send entries.reverse ⟨w₀, false⟩).attempts, false,
            (processAll ch ints send entries.reverse ⟨w₀, false⟩).paces⟩) := by
  unfold fetch_and_send_news
  simp only [he, hc, Bool.false_eq_true, if_false]

/-- Unfolding equation for `fetch_and_send_news` on a non-empty feed whose
main pass crashes. -/
lemma fetch_unfold_crash (ch : String → String) (ints : Finset String)
    (send : Entry → SendResult) (entries : List Entry) (w₀ : Option Int)
    (he : entries.isEmpty = false)
    (hc : (processAll ch ints send entries.reverse ⟨w₀, false⟩).crashed = true) :
    fetch_and_send_news ch ints send entries w₀
      = ⟨(processAll ch ints send entries.reverse ⟨w₀, false⟩).st.watermark,
         (processAll ch ints send entries.reverse ⟨w₀, false⟩).attempts, true,
         (processAll ch ints send entries.reverse ⟨w₀, false⟩).paces⟩ := by
  unfold fetch_and_send_news
  simp only [he, hc, Bool.false_eq_true, if_false, if_true]

/-- The watermark produced by the main loop is the initial watermark with
the attempts replayed over it. -/
lemma processAll_watermark (ch : String → String) (ints : Finset String)
    (send : Entry → SendResult) :
    ∀ (r : List Entry) (st : LoopState),
      (processAll ch ints send r st).st.watermark
        = wmAfter st.watermark (processAll ch ints send r st).attempts
  | [], st => rfl
  | e :: rest, st => by
    rw [processAll_cons]
    by_cases hc : (processEntry ch ints send st e).crashed
    · simpa [hc] using processEntry_watermark ch ints send st e
    · simp only [hc, Bool.false_eq_true, if_false]
      rw [wmAfter_append, ← processEntry_watermark]
      exact processAll_watermark ch ints send rest _

/-- The watermark produced by the fallback loop is the initial watermark
with the attempts replayed over it. -/
lemma fallback_watermark (send : Entry → SendResult) (r : List Entry)
    (st : LoopState) :
    (fallback_send send r st).st.watermark
      = wmAfter st.watermark (fallback_send send r st).attempts := by
  cases r with
  | nil => rfl
  | cons e t =>
    cases hd : e.published_parsed with
    | none => simp [fallback_send, hd, wmAfter]
    | some d => simp [fallback_send, hd, wmAfter]

/-- The watermark produced by a whole cycle is the initial watermark with
the cycle's attempts replayed over it. -/
lemma fetch_watermark (ch : String → String) (ints : Finset String)
    (send : Entry → SendResult) (entries : List Entry) (w₀ : Option Int) :
    (fetch_and_send_news ch ints send entries w₀).watermark
      = wmAfter w₀ (fetch_and_send_news ch ints send entries w₀).attempts := by
  by_cases he : entries.isEmpty
  · simp [fetch_and_send_news, he, wmAfter]
  · replace he : entries.isEmpty = false := by simpa using he
    by_cases hc : (processAll ch ints send entries.reverse ⟨w₀, false⟩).crashed
    · rw [fetch_unfold_crash ch ints send entries w₀ he hc]
      exact processAll_watermark ch ints send entries.reverse ⟨w₀, false⟩
    · replace hc : (processAll ch ints send entries.reverse ⟨w₀, false⟩).crashed = false := by
        simpa using hc
      rw [fetch_unfold ch ints send entries w₀ he hc]
      by_cases hf : (!(processAll ch ints send entries.reverse ⟨w₀, false⟩).st.foundInterested
          && (processAll ch ints send entries.reverse ⟨w₀, false⟩).st.watermark.isNone)
      · simp only [hf, if_true]
        rw [wmAfter_append]
        rw [show wmAfter w₀ (processAll ch ints send entries.reverse ⟨w₀, false⟩).attempts
              = (processAll ch ints send entries.reverse ⟨w₀, false⟩).st.watermark
            from (processAll_watermark ch ints send entries.reverse ⟨w₀, false⟩).symm]
        exact fallback_watermark send entries.reverse _
      · simp only [hf, Bool.false_eq_true, if_false]
        exact processAll_watermark ch ints send entries.reverse ⟨w₀, false⟩

/-! ### Monotonicity of the watermark -/

/-- One entry never moves the watermark backwards. -/
lemma processEntry_mono (ch : String → String) (ints : Finset String)
    (send : Entry → SendResult) (st : LoopState) (e : Entry) :
    wLE st.watermark (processEntry ch ints send st e).st.watermark = true := by
  unfold processEntry
  cases e.published_parsed with
  | none => exact wLE_refl _
  | some d =>
    by_cases h1 : timestampEligible st.watermark d
    · by_cases h2 : is_interesting (get_categories ch e) ints
      · simp only [h1, h2, if_true]
        by_cases hres : send e = SendResult.ok
        · simp only [hres, if_true]
          cases hw : st.watermark with
          | none => exact rfl
          | some w =>
            have : d > w := by
              have := h1
              rw [hw] at this
              simpa [timestampEligible] using this
            simp [wLE]
            omega
        · simp [hres, wLE_refl]
      · simp [h1, h2, wLE_refl]
    · simp [h1, wLE_refl]

/-- The main loop never moves the watermark backwards. -/
lemma processAll_mono (ch : String → String) (ints : Finset String)
    (send : Entry → SendResult) :
    ∀ (r : List Entry) (st : LoopState),
      wLE st.watermark (processAll ch ints send r st).st.watermark = true
  | [], st => wLE_refl _
  | e :: rest, st => by
    rw [processAll_cons]
    by_cases hc : (processEntry ch ints send st e).crashed
    · simpa [hc] using processEntry_mono ch ints send st e
    · simp only [hc, Bool.false_eq_true, if_false]
      exact wLE_trans (processEntry_mono ch ints send st e)
        (processAll_mono ch ints send rest _)

/-- A whole cycle never moves the watermark backwards. -/
lemma fetch_mono (ch : String → String) (ints : Finset String)
    (send : Entry → SendResult) (entries : List Entry) (w₀ : Option Int) :
    wLE w₀ (fetch_and_send_news ch ints send entries w₀).watermark = true := by
  by_cases he : entries.isEmpty
  · simp [fetch_and_send_news, he, wLE_refl]
  · replace he : entries.isEmpty = false := by simpa using he
    have hmain : wLE w₀ (processAll ch ints send entries.reverse ⟨w₀, false⟩).st.watermark = true :=
      processAll_mono ch ints send entries.reverse ⟨w₀, false⟩
    by_cases hc : (processAll ch ints send entries.reverse ⟨w₀, false⟩).crashed
    · rw [fetch_unfold_crash ch ints send entries w₀ he hc]
      exact hmain
    · replace hc : (processAll ch ints send entries.reverse ⟨w₀, false⟩).crashed = false := by
        simpa using hc
      rw [fetch_unfold ch ints send entries w₀ he hc]
      by_cases hf : (!(processAll ch ints send entries.reverse ⟨w₀, false⟩).st.foundInterested
          && (processAll ch ints send entries.reverse ⟨w₀, false⟩).st.watermark.isNone)
      · simp only [hf, if_true]
        have hnone : (processAll ch ints send entries.reverse ⟨w₀, false⟩).st.watermark = none := by
          have := (Bool.and_eq_true _ _).mp hf
          exact Option.isNone_iff_eq_none.mp (by simpa using this.2)
        have hw0 : w₀ = none := by
          rw [hnone] at hmain
          exact eq_none_of_wLE_none hmain
        rw [hw0]
        exact wLE_none_left _
      · simp only [hf, Bool.false_eq_true, if_false]
        exact hmain

/-- One `run_bot` iteration never moves the watermark backwards. -/
lemma run_bot_step_mono (inp : RunInput) (w : Option Int) :
    wLE w (run_bot_step inp w).1 = true := by
  unfold run_bot_step
  cases inp.fetch with
  | fetchError => exact wLE_refl _
  | entries l => exact fetch_mono inp.cleanHtml inp.interested inp.send l w

/-- The watermark never decreases across any sequence of cycles. -/
lemma run_bot_iter_mono :
    ∀ (steps : List RunInput) (w : Option Int),
      wLE w (run_bot_iter steps w) = true
  | [], _ => wLE_refl _
  | inp :: rest, w =>
    wLE_trans (run_bot_step_mono inp w) (run_bot_iter_mono rest _)

/-! ### The watermark equals the date of the last acknowledged delivery -/

/-- Replaying attempts is the same as taking the last acknowledged-ok
attempt's date (or keeping the original watermark when none succeeded). -/
lemma wmAfter_lastOk :
    ∀ (atts : List Attempt) (w : Option Int),
      wmAfter w atts
        = (match (atts.filter fun a => decide (a.result = SendResult.ok)).getLast? with
           | none => w
           | some a => some a.date)
  | [], w => rfl
  | a :: t, w => by
    rw [wmAfter_cons, wmAfter_lastOk t]
    by_cases hres : a.result = SendResult.ok
    · simp only [hres, if_true, List.filter_cons, decide_eq_true_eq, decide_True]
      cases hft : t.filter (fun a => decide (a.result = SendResult.ok)) with
      | nil => simp [hft]
      | cons b u =>
        simp only [hft, List.getLast?_cons_cons]
        rw [List.getLast?_eq_getLast _ (List.cons_ne_nil b u)]
    · simp only [hres, if_false, List.filter_cons]
      simp [hres]

/-! ### Unfolding equations for the loop body -/

lemma processEntry_crash (ch : String → String) (ints : Finset String)
    (send : Entry → SendResult) (st : LoopState) (e : Entry)
    (hd : e.published_parsed = none) :
    processEntry ch ints send st e = ⟨st, [], true, 0⟩ := by
  unfold processEntry; rw [hd]

lemma processEntry_skip (ch : String → String) (ints : Finset String)
    (send : Entry → SendResult) (st : LoopState) (e : Entry) (d : Int)
    (hd : e.published_parsed = some d)
    (hts : timestampEligible st.watermark d = false) :
    processEntry ch ints send st e = ⟨st, [], false, 0⟩ := by
  unfold processEntry; rw [hd]; simp [hts]

lemma processEntry_notint (ch : String → String) (ints : Finset String)
    (send : Entry → SendResult) (st : LoopState) (e : Entry) (d : Int)
    (hd : e.published_parsed = some d)
    (hts : timestampEligible st.watermark d = true)
    (hint : is_interesting (get_categories ch e) ints = false) :
    processEntry ch ints send st e = ⟨st, [], false, 0⟩ := by
  unfold processEntry; rw [hd]; simp [hts, hint]

lemma processEntry_attempt (ch : String → String) (ints : Finset String)
    (send : Entry → SendResult) (st : LoopState) (e : Entry) (d : Int)
    (hd : e.published_parsed = some d)
    (hts : timestampEligible st.watermark d = true)
    (hint : is_interesting (get_categories ch e) ints = true) :
    processEntry ch ints send st e
      = ⟨⟨if send e = SendResult.ok then some d else st.watermark, true⟩,
         [⟨e, d, send e⟩], false, 1⟩ := by
  unfold processEntry; rw [hd]; simp [hts, hint]

lemma elig_some {e : Entry} {d : Int} (ch : String → String)
    (ints : Finset String) (w : Option Int)
    (hd : e.published_parsed = some d) :
    elig ch ints w e
      = (timestampEligible w d && is_interesting (get_categories ch e) ints) := by
  unfold elig; rw [hd]

/-! ### A characterization of the main loop on a date-sorted entry list

During one cycle the timestamp guard is evaluated against the *live*
watermark.  When the (reversed) entry list is strictly increasing in
publication date — the program's standing assumption of a newest-first
feed — the live guard agrees with the guard taken against the watermark
`w₀` the cycle started from.  `stInv` is the invariant making that
precise: the live watermark is either still `w₀`, or the date of a
previously delivered entry, which passed the guard against `w₀` and is
below every date still to be iterated. -/

def stInv (w₀ w : Option Int) (r : List Entry) : Prop :=
  w = w₀ ∨ ∃ d', w = some d' ∧ timestampEligible w₀ d' = true ∧
    ∀ e ∈ r, ∀ d, e.published_parsed = some d → d' < d

lemma stInv_tail {w₀ w : Option Int} {e : Entry} {rest : List Entry}
    (hinv : stInv w₀ w (e :: rest)) : stInv w₀ w rest := by
  rcases hinv with h | ⟨d', hw, he, hlt⟩
  · exact Or.inl h
  · exact Or.inr ⟨d', hw, he, fun x hx => hlt x (List.mem_cons_of_mem e hx)⟩

/-- Under the invariant, the live timestamp guard agrees with the guard
against the cycle-start watermark. -/
lemma stInv_elig_eq {w₀ w : Option Int} {e : Entry} {rest : List Entry}
    {d : Int} (hinv : stInv w₀ w (e :: rest))
    (hd : e.published_parsed = some d) :
    timestampEligible w d = timestampEligible w₀ d := by
  rcases hinv with h | ⟨d', hw, he, hlt⟩
  · rw [h]
  · have hdd : d' < d := hlt e (List.mem_cons_self e rest) d hd
    rw [hw]
    have h1 : timestampEligible (some d') d = true := by
      simp [timestampEligible]; omega
    have h2 : timestampEligible w₀ d = true := by
      cases w₀ with
      | none => rfl
      | some wv =>
        have : d' > wv := by simpa [timestampEligible] using he
        simp [timestampEligible]; omega
    rw [h1, h2]

/-- The main loop on a date-sorted list: it makes exactly one attempt for
each entry that passes the timestamp guard (against the cycle-start
watermark) and the category gate, in list order; it never crashes when all
dates are present; `found_interested` records whether any such entry
exists; and the final watermark is the replay of those attempts. -/
lemma processAll_run (ch : String → String) (ints : Finset String)
    (send : Entry → SendResult) (w₀ : Option Int) :
    ∀ (r : List Entry) (st : LoopState),
      (∀ e ∈ r, (e.published_parsed).isSome) →
      (r.filterMap Entry.published_parsed).Pairwise (· < ·) →
      stInv w₀ st.watermark r →
      processAll ch ints send r st
        = ⟨⟨wmAfter st.watermark
              ((r.filter (elig ch ints w₀)).map fun e => ⟨e, dOf e, send e⟩),
            st.foundInterested || r.any (elig ch ints w₀)⟩,
           (r.filter (elig ch ints w₀)).map (fun e => ⟨e, dOf e, send e⟩),
           false,
           (r.filter (elig ch ints w₀)).length⟩
  | [], st, _, _, _ => by simp [processAll, wmAfter]
  | e :: rest, st, hsome, hsorted, hinv => by
    obtain ⟨d, hd⟩ := Option.isSome_iff_exists.mp
      (hsome e (List.mem_cons_self e rest))
    have hsome' : ∀ x ∈ rest, (x.published_parsed).isSome :=
      fun x hx => hsome x (List.mem_cons_of_mem e hx)
    have hfm : (e :: rest).filterMap Entry.published_parsed
        = d :: rest.filterMap Entry.published_parsed := by
      simp [List.filterMap_cons, hd]
    rw [hfm] at hsorted
    obtain ⟨hall, hsorted'⟩ := List.pairwise_cons.mp hsorted
    have heq := stInv_elig_eq hinv hd
    have heligb := elig_some ch ints w₀ hd
    cases hts : timestampEligible w₀ d with
    | false =>
      have hlive : timestampEligible st.watermark d = false := heq.trans hts
      have helig : elig ch ints w₀ e = false := by
        rw [heligb, hts]; rfl
      have hrec := processAll_run ch ints send w₀ rest st hsome' hsorted'
        (stInv_tail hinv)
      simp only [processAll_cons, processEntry_skip ch ints send st e d hd hlive,
        hrec]
      simp [List.filter_cons, helig, List.any_cons]
    | true =>
      have hlive : timestampEligible st.watermark d = true := heq.trans hts
      cases hint : is_interesting (get_categories ch e) ints with
      | false =>
        have helig : elig ch ints w₀ e = false := by
          rw [heligb, hts, hint]; rfl
        have hrec := processAll_run ch ints send w₀ rest st hsome' hsorted'
          (stInv_tail hinv)
        simp only [processAll_cons, processEntry_notint ch ints send st e d hd
          hlive hint, hrec]
        simp [List.filter_cons, helig, List.any_cons]
      | true =>
        have helig : elig ch ints w₀ e = true := by
          rw [heligb, hts, hint]; rfl
        rw [processAll_cons, processEntry_attempt ch ints send st e d hd hlive hint]
        have hinv' : stInv w₀
            (if send e = SendResult.ok then some d else st.watermark) rest := by
          by_cases hok : send e = SendResult.ok
          · simp only [hok, if_true]
            refine Or.inr ⟨d, rfl, hts, fun x hx dx hdx => ?_⟩
            exact hall dx (List.mem_filterMap.mpr ⟨x, hx, hdx⟩)
          · simp only [hok, if_false]
            exact stInv_tail hinv
        have hrec := processAll_run ch ints send w₀ rest
          ⟨if send e = SendResult.ok then some d else st.watermark, true⟩
          hsome' hsorted' hinv'
        have hdOf : dOf e = d := by simp [dOf, hd]
        simp only [processAll_cons,
          processEntry_attempt ch ints send st e d hd hlive hint, hrec]
        simp [List.filter_cons, helig, List.any_cons, hdOf, wmAfter_cons,
          CycleResult.mk.injEq, LoopState.mk.injEq, Nat.add_comm]
  termination_by r => r.length

/-! ### Further facts about the main loop -/

/-- Once the watermark is set to `w`, every subsequent attempt of the same
cycle is for an entry dated strictly after `w`. -/
lemma processAll_attempts_gt (ch : String → String) (ints : Finset String)
    (send : Entry → SendResult) :
    ∀ (r : List Entry) (st : LoopState) (w : Int),
      st.watermark = some w →
      ∀ a ∈ (processAll ch ints send r st).attempts, w < a.date
  | [], _, _, _, a, ha => by simp [processAll] at ha
  | e :: rest, st, w, hw, a, ha => by
    cases hd : e.published_parsed with
    | none =>
      rw [processAll_cons, processEntry_crash ch ints send st e hd] at ha
      simp at ha
    | some d =>
      cases hts : timestampEligible st.watermark d with
      | false =>
        rw [processAll_cons, processEntry_skip ch ints send st e d hd hts] at ha
        simp only [CycleResult.mk.injEq] at ha
        simp at ha
        exact processAll_attempts_gt ch ints send rest st w hw a ha
      | true =>
        have hdw : w < d := by
          rw [hw] at hts
          simpa [timestampEligible] using hts
        cases hint : is_interesting (get_categories ch e) ints with
        | false =>
          rw [processAll_cons,
            processEntry_notint ch ints send st e d hd hts hint] at ha
          simp at ha
          exact processAll_attempts_gt ch ints send rest st w hw a ha
        | true =>
          rw [processAll_cons,
            processEntry_attempt ch ints send st e d hd hts hint] at ha
          simp at ha
          rcases ha with rfl | ha
          · simpa using hdw
          · by_cases hok : send e = SendResult.ok
            · simp only [hok, if_true] at ha
              have := processAll_attempts_gt ch ints send rest
                ⟨some d, true⟩ d rfl a ha
              omega
            · simp only [hok, if_false] at ha
              exact processAll_attempts_gt ch ints send rest
                ⟨st.watermark, true⟩ w hw a ha
  termination_by r => r.length

/-- A pass over entries none of which clears the category gate makes no
attempt, no crash, and leaves the state untouched (when all dates are
parseable). -/
lemma processAll_no_interesting (ch : String → String) (ints : Finset String)
    (send : Entry → SendResult) :
    ∀ (r : List Entry) (st : LoopState),
      (∀ e ∈ r, (e.published_parsed).isSome) →
      (∀ e ∈ r, is_interesting (get_categories ch e) ints = false) →
      processAll ch ints send r st = ⟨st, [], false, 0⟩
  | [], st, _, _ => rfl
  | e :: rest, st, hsome, hint => by
    obtain ⟨d, hd⟩ := Option.isSome_iff_exists.mp
      (hsome e (List.mem_cons_self e rest))
    have hrec := processAll_no_interesting ch ints send rest st
      (fun x hx => hsome x (List.mem_cons_of_mem e hx))
      (fun x hx => hint x (List.mem_cons_of_mem e hx))
    cases hts : timestampEligible st.watermark d with
    | false =>
      simp only [processAll_cons, processEntry_skip ch ints send st e d hd hts,
        hrec]
      simp
    | true =>
      simp only [processAll_cons, processEntry_notint ch ints send st e d hd hts
        (hint e (List.mem_cons_self e rest)), hrec]
      simp

/-- When the iteration reaches an entry without a parseable date, the cycle
crashes there: entries after it are never processed, and every attempt made
belongs to the prefix before the bad entry. -/
lemma processAll_crashes (ch : String → String) (ints : Finset String)
    (send : Entry → SendResult) :
    ∀ (pre : List Entry) (bad : Entry) (post : List Entry) (st : LoopState),
      bad.published_parsed = none →
      (∀ e ∈ pre, (e.published_parsed).isSome) →
      (processAll ch ints send (pre ++ bad :: post) st).crashed = true ∧
        ∀ a ∈ (processAll ch ints send (pre ++ bad :: post) st).attempts,
          a.entry ∈ pre
  | [], bad, post, st, hbad, _ => by
    rw [List.nil_append, processAll_cons, processEntry_crash ch ints send st bad hbad]
    exact ⟨rfl, fun a ha => absurd ha (List.not_mem_nil a)⟩
  | e :: pre, bad, post, st, hbad, hsome => by
    obtain ⟨d, hd⟩ := Option.isSome_iff_exists.mp
      (hsome e (List.mem_cons_self e pre))
    have hsome' : ∀ x ∈ pre, (x.published_parsed).isSome :=
      fun x hx => hsome x (List.mem_cons_of_mem e hx)
    rw [List.cons_append]
    cases hts : timestampEligible st.watermark d with
    | false =>
      have hrec := processAll_crashes ch ints send pre bad post st hbad hsome'
      simp only [processAll_cons, processEntry_skip ch ints send st e d hd hts,
        Bool.false_eq_true, if_false, List.nil_append]
      constructor
      · exact hrec.1
      · intro a ha
        exact List.mem_cons_of_mem e (hrec.2 a ha)
    | true =>
      cases hint : is_interesting (get_categories ch e) ints with
      | false =>
        have hrec := processAll_crashes ch ints send pre bad post st hbad hsome'
        simp only [processAll_cons,
          processEntry_notint ch ints send st e d hd hts hint]
        constructor
        · simpa using hrec.1
        · intro a ha
          simp at ha
          exact List.mem_cons_of_mem e (hrec.2 a ha)
      | true =>
        have hrec := processAll_crashes ch ints send pre bad post
          ⟨if send e = SendResult.ok then some d else st.watermark, true⟩
          hbad hsome'
        simp only [processAll_cons,
          processEntry_attempt ch ints send st e d hd hts hint]
        constructor
        · simpa using hrec.1
        · intro a ha
          simp at ha
          rcases ha with rfl | ha
          · exact List.mem_cons_self e pre
          · exact List.mem_cons_of_mem e (hrec.2 a ha)

/-- The fallback loop attempts at most one entry. -/
lemma fallback_cases (send : Entry → SendResult) (r : List Entry)
    (st : LoopState) :
    (fallback_send send r st).attempts = [] ∨
      ∃ a, (fallback_send send r st).attempts = [a] := by
  cases r with
  | nil => exact Or.inl rfl
  | cons e t =>
    cases hd : e.published_parsed with
    | none => exact Or.inl (by simp [fallback_send, hd])
    | some d => exact Or.inr ⟨⟨e, d, send e⟩, by simp [fallback_send, hd]⟩

/-! ### Sorted-list utilities -/

lemma filterMap_pp_eq_map_dOf :
    ∀ (r : List Entry), (∀ e ∈ r, (e.published_parsed).isSome) →
      r.filterMap Entry.published_parsed = r.map dOf
  | [], _ => rfl
  | e :: rest, hsome => by
    obtain ⟨d, hd⟩ := Option.isSome_iff_exists.mp
      (hsome e (List.mem_cons_self e rest))
    rw [List.filterMap_cons, hd, List.map_cons,
      filterMap_pp_eq_map_dOf rest (fun x hx => hsome x (List.mem_cons_of_mem e hx))]
    simp [dOf, hd]

lemma nodup_of_dates_pairwise {r : List Entry}
    (h : (r.map dOf).Pairwise (· < ·)) : r.Nodup := by
  have h' : r.Pairwise (fun a b => dOf a < dOf b) := List.pairwise_map.mp h
  exact h'.imp (fun {a b} hab => by
    intro hEq
    rw [hEq] at hab
    exact absurd hab (lt_irrefl _))

lemma le_dOf_getLast :
    ∀ (l : List Entry), (l.map dOf).Pairwise (· < ·) → (hne : l ≠ []) →
      ∀ e ∈ l, dOf e ≤ dOf (l.getLast hne)
  | [], _, hne, _, _ => absurd rfl hne
  | a :: t, hp, hne, e, he => by
    cases t with
    | nil =>
      rcases List.mem_singleton.mp he with rfl
      simp [List.getLast_singleton]
    | cons b u =>
      have hpc : ∀ x ∈ (b :: u).map dOf, dOf a < x := by
        rw [List.map_cons] at hp
        exact (List.pairwise_cons.mp hp).1
      have hp' : ((b :: u).map dOf).Pairwise (· < ·) := by
        rw [List.map_cons] at hp
        exact (List.pairwise_cons.mp hp).2
      have hlast : (a :: b :: u).getLast hne = (b :: u).getLast (List.cons_ne_nil b u) :=
        List.getLast_cons (List.cons_ne_nil b u)
      rcases List.mem_cons.mp he with rfl | he'
      · have hfirst : ∀ x ∈ b :: u, dOf e < dOf x :=
          fun x hx => hpc (dOf x) (List.mem_map.mpr ⟨x, hx, rfl⟩)
        rw [hlast]
        exact le_of_lt (hfirst _ (List.getLast_mem (List.cons_ne_nil b u)))
      · rw [hlast]
        exact le_dOf_getLast (b :: u) hp' (List.cons_ne_nil b u) e he'

lemma countP_eq_one_of_nodup_mem {α : Type} [DecidableEq α] :
    ∀ {l : List α} {a : α}, l.Nodup → a ∈ l →
      l.countP (fun x => decide (x = a)) = 1
  | [], a, _, ha => absurd ha (List.not_mem_nil a)
  | b :: t, a, hnd, ha => by
    obtain ⟨hbt, hndt⟩ := List.nodup_cons.mp hnd
    rcases List.mem_cons.mp ha with rfl | hat
    · rw [List.countP_cons]
      have h0 : t.countP (fun x => decide (x = a)) = 0 := by
        rw [List.countP_eq_zero]
        intro x hx
        simp only [decide_eq_true_eq]
        intro hEq
        exact hbt (hEq ▸ hx)
      simp [h0]
    · rw [List.countP_cons]
      have hba : ¬ (b = a) := fun hEq => hbt (hEq ▸ hat)
      simp [hba, countP_eq_one_of_nodup_mem hndt hat]

lemma ts_le_of_false_true {w : Option Int} {a b : Int}
    (ha : timestampEligible w a = false)
    (hb : timestampEligible w b = true) : a ≤ b := by
  cases w with
  | none => simp [timestampEligible] at ha
  | some v =>
    have h1 : ¬ a > v := by simpa [timestampEligible] using ha
    have h2 : b > v := by simpa [timestampEligible] using hb
    omega

lemma ts_false_of_le {a b : Int} (h : a ≤ b) :
    timestampEligible (some b) a = false := by
  simp only [timestampEligible, decide_eq_false_iff_not]
  omega

lemma pp_eq_some_dOf {e : Entry} (h : (e.published_parsed).isSome) :
    e.published_parsed = some (dOf e) := by
  obtain ⟨d, hd⟩ := Option.isSome_iff_exists.mp h
  rw [hd]
  simp [dOf, hd]

/-- Replaying the attempts of an all-acknowledged run over any watermark
lands on the date of the last entry attempted. -/
lemma wmAfter_map_ok (send : Entry → SendResult)
    (hok : ∀ e, send e = SendResult.ok) :
    ∀ (l : List Entry) (w : Option Int) (hne : l ≠ []),
      wmAfter w (l.map fun e => ⟨e, dOf e, send e⟩)
        = some (dOf (l.getLast hne))
  | [], _, hne => absurd rfl hne
  | e :: t, w, hne => by
    rw [List.map_cons, wmAfter_cons]
    rw [show (if (⟨e, dOf e, send e⟩ : Attempt).result = SendResult.ok
          then some (⟨e, dOf e, send e⟩ : Attempt).date else w)
        = some (dOf e) by simp [hok e]]
    cases t with
    | nil => simp [wmAfter, List.getLast_singleton]
    | cons b u =>
      rw [wmAfter_map_ok send hok (b :: u) (some (dOf e)) (List.cons_ne_nil b u)]
      rw [List.getLast_cons (List.cons_ne_nil b u)]

/-- A cycle starting from a set watermark against which no entry is both
timestamp-eligible and interesting makes no delivery attempt. -/
lemma fetch_no_elig_attempts (ch : String → String) (ints : Finset String)
    (send : Entry → SendResult) (entries : List Entry) (w : Option Int)
    (x : Int) (hw : w = some x)
    (hsome_r : ∀ e ∈ entries.reverse, (e.published_parsed).isSome)
    (hsorted_r : (entries.reverse.filterMap Entry.published_parsed).Pairwise
      (· < ·))
    (hnone : ∀ e ∈ entries.reverse, elig ch ints w e = false) :
    (fetch_and_send_news ch ints send entries w).attempts = [] := by
  by_cases hniel : entries = []
  · subst hniel
    simp [fetch_and_send_news]
  · have hne' : entries.isEmpty = false := by
      cases entries with
      | nil => exact absurd rfl hniel
      | cons _ _ => rfl
    have hrun := processAll_run ch ints send w entries.reverse ⟨w, false⟩
      hsome_r hsorted_r (Or.inl rfl)
    have hc : (processAll ch ints send entries.reverse ⟨w, false⟩).crashed
        = false := by rw [hrun]
    have hL : entries.reverse.filter (elig ch ints w) = [] :=
      List.filter_eq_nil_iff.mpr (fun a ha => by simp [hnone a ha])
    have hguard : (!(processAll ch ints send entries.reverse ⟨w, false⟩).st.foundInterested
        && (processAll ch ints send entries.reverse ⟨w, false⟩).st.watermark.isNone)
        = false := by
      rw [hrun]
      simp only [hL, List.map_nil, wmAfter_nil]
      rw [hw]
      simp only [Option.isNone_some, Bool.and_false]
    rw [fetch_unfold ch ints send entries w hne' hc, hguard]
    simp only [Bool.false_eq_true, if_false]
    rw [hrun]
    simp [hL]

/-! ### Concrete sample data for witnesses and counterexamples -/

def entryAI : Entry := ⟨"ai-article", "https://x/ai", some 2, some [Tag.dictWithTerm "AI"]⟩

def entrySports : Entry := ⟨"sports-article", "https://x/sports", some 1, some [Tag.dictWithTerm "Sports"]⟩

def entryRobotics : Entry := ⟨"robots", "https://x/rob", some 3, some [Tag.dictWithTerm "Robotics", Tag.nonDict]⟩

def entryNoDate : Entry := ⟨"undated", "https://x/undated", none, some [Tag.dictWithTerm "AI"]⟩

def entryNoTags : Entry := ⟨"untagged", "https://x/untagged", some 5, none⟩

def entryNew : Entry := ⟨"newest", "https://x/new", some 2, none⟩

def entryOld : Entry := ⟨"oldest", "https://x/old", some 1, none⟩

def sendOk : Entry → SendResult := fun _ => SendResult.ok

def sendFail : Entry → SendResult := fun _ => SendResult.apiFail

/-! ### The claims -/

/-- C9: for every parsed entry, the extracted category set contains exactly
the sanitized `term` values of the dict tags carrying a `term` key; tags
that are not dicts or lack `term` are ignored, and a missing tag list
yields the empty set rather than an error. -/
theorem c9_categories (ch : String → String) (e : Entry) :
    (∀ s, s ∈ get_categories ch e ↔
       ∃ t, Tag.dictWithTerm t ∈ e.tags.getD [] ∧ s = ch t)
    ∧ (e.tags = none → get_categories ch e = ∅) := by
  constructor
  · intro s
    unfold get_categories
    rw [List.mem_toFinset, List.mem_filterMap]
    constructor
    · rintro ⟨t, ht, hmatch⟩
      cases t with
      | dictWithTerm u =>
        refine ⟨u, ht, ?_⟩
        simpa using hmatch.symm
      | dictNoTerm => simp at hmatch
      | nonDict => simp at hmatch
    · rintro ⟨t, ht, rfl⟩
      exact ⟨Tag.dictWithTerm t, ht, rfl⟩
  · intro h
    unfold get_categories
    rw [h]
    rfl

/-- C9 witness: an entry with no tag list at all yields the empty category
set. -/
theorem c9_witness :
    entryNoTags.tags = none ∧ get_categories id entryNoTags = ∅ :=
  ⟨rfl, (c9_categories id entryNoTags).2 rfl⟩

/-- C6: with a set watermark `w`, an entry dated `d` is skipped by the
timestamp guard iff `d` is not strictly after `w`; with an unset watermark
no entry is skipped by this rule; and a skipped entry produces no category
computation, no send, and no state change — the result is independent of
the sanitizer, the allowed set and the send oracle. -/
theorem c6_timestamp_skip :
    (∀ (w d : Int), timestampEligible (some w) d = false ↔ ¬ d > w)
    ∧ (∀ d : Int, timestampEligible none d = true)
    ∧ (∀ (ch : String → String) (ints : Finset String)
         (send : Entry → SendResult) (st : LoopState) (e : Entry) (d : Int),
         e.published_parsed = some d →
         timestampEligible st.watermark d = false →
         processEntry ch ints send st e = ⟨st, [], false, 0⟩) := by
  refine ⟨?_, fun _ => rfl, ?_⟩
  · intro w d
    simp [timestampEligible]
  · intro ch ints send st e d hd hts
    exact processEntry_skip ch ints send st e d hd hts

/-- C6 witness: the entry dated 2 against watermark 5 is skipped with no
observable effect. -/
theorem c6_witness :
    entryAI.published_parsed = some 2
    ∧ timestampEligible (some 5) 2 = false
    ∧ processEntry id ∅ sendOk ⟨some 5, false⟩ entryAI
        = ⟨⟨some 5, false⟩, [], false, 0⟩ :=
  ⟨rfl, by decide,
   c6_timestamp_skip.2.2 id ∅ sendOk ⟨some 5, false⟩ entryAI 2 rfl (by decide)⟩

/-- C7: when the send for an eligible interesting entry does not come back
with an ok acknowledgment (API failure or transport exception), the
watermark is not advanced, the pacing delay still runs, the cycle does not
crash, and processing continues with the remaining entries from the
unchanged watermark. -/
theorem c7_send_failure (ch : String → String) (ints : Finset String)
    (send : Entry → SendResult) (st : LoopState) (e : Entry) (d : Int)
    (rest : List Entry)
    (hd : e.published_parsed = some d)
    (hts : timestampEligible st.watermark d = true)
    (hint : is_interesting (get_categories ch e) ints = true)
    (hfail : send e ≠ SendResult.ok) :
    processEntry ch ints send st e
      = ⟨⟨st.watermark, true⟩, [⟨e, d, send e⟩], false, 1⟩
    ∧ processAll ch ints send (e :: rest) st
        = ⟨(processAll ch ints send rest ⟨st.watermark, true⟩).st,
           ⟨e, d, send e⟩
             :: (processAll ch ints send rest ⟨st.watermark, true⟩).attempts,
           (processAll ch ints send rest ⟨st.watermark, true⟩).crashed,
           1 + (processAll ch ints send rest ⟨st.watermark, true⟩).paces⟩ := by
  have h1 : processEntry ch ints send st e
      = ⟨⟨st.watermark, true⟩, [⟨e, d, send e⟩], false, 1⟩ := by
    rw [processEntry_attempt ch ints send st e d hd hts hint, if_neg hfail]
  refine ⟨h1, ?_⟩
  rw [processAll_cons, h1]
  simp

/-- C7 witness: a failing send for the interesting entry dated 2 leaves the
watermark unset, runs one pacing delay, and does not crash. -/
theorem c7_witness :
    entryAI.published_parsed = some 2
    ∧ timestampEligible (none : Option Int) 2 = true
    ∧ is_interesting (get_categories id entryAI) INTERESTED_CATEGORIES = true
    ∧ sendFail entryAI ≠ SendResult.ok
    ∧ processEntry id INTERESTED_CATEGORIES sendFail ⟨none, false⟩ entryAI
        = ⟨⟨none, true⟩, [⟨entryAI, 2, SendResult.apiFail⟩], false, 1⟩ :=
  ⟨rfl, rfl, by decide, by decide,
   (c7_send_failure id INTERESTED_CATEGORIES sendFail ⟨none, false⟩ entryAI 2 []
     rfl rfl (by decide) (by decide)).1⟩

/-- C10: the timestamp guard is evaluated against the live watermark.  After
a delivery acknowledged at timestamp `T`, every later-iterated entry of the
same cycle attempted at all is dated strictly after `T`; in particular an
entry dated at or before `T` is silently skipped even when its tags match
the allowed set. -/
theorem c10_live_watermark (ch : String → String) (ints : Finset String)
    (send : Entry → SendResult) (st : LoopState) (e1 : Entry)
    (rest : List Entry) (T : Int)
    (h1 : e1.published_parsed = some T)
    (hts : timestampEligible st.watermark T = true)
    (hint1 : is_interesting (get_categories ch e1) ints = true)
    (hok : send e1 = SendResult.ok) :
    ∃ tail, (processAll ch ints send (e1 :: rest) st).attempts
        = ⟨e1, T, SendResult.ok⟩ :: tail
      ∧ ∀ a ∈ tail, T < a.date := by
  have h1' : processEntry ch ints send st e1
      = ⟨⟨some T, true⟩, [⟨e1, T, SendResult.ok⟩], false, 1⟩ := by
    rw [processEntry_attempt ch ints send st e1 T h1 hts hint1, hok]
    simp
  refine ⟨(processAll ch ints send rest ⟨some T, true⟩).attempts, ?_, ?_⟩
  · rw [processAll_cons, h1']
    simp
  · exact processAll_attempts_gt ch ints send rest ⟨some T, true⟩ T rfl

/-- C10 witness: after the entry dated 3 is delivered, the matching entry
dated 2 later in the iteration is not attempted. -/
theorem c10_witness :
    entryRobotics.published_parsed = some 3
    ∧ timestampEligible (none : Option Int) 3 = true
    ∧ is_interesting (get_categories id entryRobotics) INTERESTED_CATEGORIES = true
    ∧ sendOk entryRobotics = SendResult.ok
    ∧ ∃ tail,
        (processAll id INTERESTED_CATEGORIES sendOk [entryRobotics, entryAI]
          ⟨none, false⟩).attempts = ⟨entryRobotics, 3, SendResult.ok⟩ :: tail
        ∧ ∀ a ∈ tail, (3 : Int) < a.date :=
  ⟨rfl, rfl, by decide, rfl,
   c10_live_watermark id INTERESTED_CATEGORIES sendOk ⟨none, false⟩
     entryRobotics [entryAI] 3 rfl rfl (by decide) rfl⟩

/-- C8 (amended): an empty parsed entry set is logged and control falls
through to the fixed 300-second cycle sleep with the watermark unchanged;
a fetch/parse exception is caught by the outer guard of `run_bot` and is
followed by the shorter 60-second error-backoff sleep — not the cycle
sleep — also with the watermark unchanged; and every cycle ends in one of
those two sleeps, so no error is fatal to the loop. -/
theorem c8_cycle_errors (ch : String → String) (ints : Finset String)
    (send : Entry → SendResult) :
    (∀ w, run_bot_step ⟨ch, ints, send, FetchOutcome.fetchError⟩ w
        = (w, ERROR_SLEEP))
    ∧ (∀ w, run_bot_step ⟨ch, ints, send, FetchOutcome.entries []⟩ w
        = (w, CYCLE_SLEEP))
    ∧ (∀ f w, (run_bot_step ⟨ch, ints, send, f⟩ w).2 = CYCLE_SLEEP
        ∨ (run_bot_step ⟨ch, ints, send, f⟩ w).2 = ERROR_SLEEP) := by
  refine ⟨fun _ => rfl, fun _ => rfl, ?_⟩
  intro f w
  cases f with
  | fetchError => exact Or.inr rfl
  | entries l =>
    unfold run_bot_step
    by_cases hc : (fetch_and_send_news ch ints send l w).crashed
    · right
      simp [hc]
    · left
      simp [hc]

/-- C8 counterexample: a fetch failure is followed by the 60-second error
backoff, not the 300-second cycle sleep the claim states. -/
theorem c8_cex :
    (run_bot_step ⟨id, INTERESTED_CATEGORIES, sendOk, FetchOutcome.fetchError⟩
      none).2 ≠ CYCLE_SLEEP := by
  decide

/-- C3: the watermark starts unset; after any cycle it equals the
publication date of the last attempt acknowledged ok in that cycle (and is
unchanged when no attempt was acknowledged — so it moves only immediately
after an acknowledged success, to the delivered entry's `published_at`);
and it never decreases, within a cycle or across any sequence of cycles. -/
theorem c3_watermark_invariant :
    last_sent_article_date_init = none
    ∧ (∀ (ch : String → String) (ints : Finset String)
         (send : Entry → SendResult) (entries : List Entry) (w₀ : Option Int),
        (fetch_and_send_news ch ints send entries w₀).watermark
          = (match ((fetch_and_send_news ch ints send entries w₀).attempts.filter
                fun a => decide (a.result = SendResult.ok)).getLast? with
             | none => w₀
             | some a => some a.date)
        ∧ wLE w₀ (fetch_and_send_news ch ints send entries w₀).watermark = true)
    ∧ (∀ (steps : List RunInput) (w : Option Int),
        wLE w (run_bot_iter steps w) = true) := by
  refine ⟨rfl, ?_, run_bot_iter_mono⟩
  intro ch ints send entries w₀
  refine ⟨?_, fetch_mono ch ints send entries w₀⟩
  rw [fetch_watermark, wmAfter_lastOk]

/-- C1 counterexample: on a two-entry feed in newest-first order with no
matching categories and an unset watermark, the fallback delivers
`entryOld` — the last entry of the original order — although the claim
says the delivered entry is the newest one, `entryNew`, the head of the
original order. -/
theorem c1_cex :
    (fetch_and_send_news id INTERESTED_CATEGORIES sendOk [entryNew, entryOld]
       none).attempts.map Attempt.entry = [entryOld]
    ∧ entryOld ≠ entryNew
    ∧ [entryNew, entryOld].head? = some entryNew := by
  refine ⟨by decide, by decide, rfl⟩

/-- C1 (amended): when no entry of the cycle clears the category gate and
the watermark is unset, the loop delivers exactly one fallback entry — the
single *oldest* entry of the feed (the first item of the reversed
oldest-first iteration, i.e. the last entry in the original newest-first
order) — unconditionally, bypassing the category filter; on acknowledged
success the watermark is set to that entry's `published_at`; on failure it
stays unset; and at most one fallback entry is sent regardless of feed
length. -/
theorem c1_fallback_oldest (ch : String → String) (ints : Finset String)
    (send : Entry → SendResult) (entries : List Entry) (fbe : Entry) (d : Int)
    (hsome : ∀ e ∈ entries, (e.published_parsed).isSome)
    (hnoint : ∀ e ∈ entries,
      is_interesting (get_categories ch e) ints = false)
    (hlast : entries.getLast? = some fbe)
    (hd : fbe.published_parsed = some d) :
    (fetch_and_send_news ch ints send entries none).attempts.map Attempt.entry
        = [fbe]
    ∧ (fetch_and_send_news ch ints send entries none).attempts.length = 1
    ∧ (send fbe = SendResult.ok →
        (fetch_and_send_news ch ints send entries none).watermark = some d)
    ∧ (send fbe ≠ SendResult.ok →
        (fetch_and_send_news ch ints send entries none).watermark = none)
    ∧ (fetch_and_send_news ch ints send entries none).crashed = false := by
  have hne : entries ≠ [] := by
    intro h
    rw [h] at hlast
    simp at hlast
  have hne' : entries.isEmpty = false := by
    cases entries with
    | nil => exact absurd rfl hne
    | cons _ _ => rfl
  have hmain : processAll ch ints send entries.reverse ⟨none, false⟩
      = ⟨⟨none, false⟩, [], false, 0⟩ :=
    processAll_no_interesting ch ints send entries.reverse ⟨none, false⟩
      (fun e he => hsome e (List.mem_reverse.mp he))
      (fun e he => hnoint e (List.mem_reverse.mp he))
  have hc : (processAll ch ints send entries.reverse ⟨none, false⟩).crashed
      = false := by rw [hmain]
  obtain ⟨t, hrev⟩ : ∃ t, entries.reverse = fbe :: t := by
    cases hr : entries.reverse with
    | nil =>
      exact absurd (List.reverse_eq_nil_iff.mp hr) hne
    | cons f t =>
      refine ⟨t, ?_⟩
      rw [← List.head?_reverse, hr] at hlast
      simp only [List.head?_cons, Option.some_inj] at hlast
      rw [hlast]
  have hfb : fallback_send send entries.reverse ⟨none, false⟩
      = ⟨⟨if send fbe = SendResult.ok then some d else none, false⟩,
         [⟨fbe, d, send fbe⟩], false, 1⟩ := by
    rw [hrev]
    unfold fallback_send
    simp [hd]
  rw [fetch_unfold ch ints send entries none hne' hc, hmain, hfb]
  by_cases hok : send fbe = SendResult.ok
  · simp [hok]
  · simp [hok]

/-- C1 witness: on the concrete no-match feed `[entryNew, entryOld]` the
single fallback attempt is for `entryOld`, the last entry of the original
order. -/
theorem c1_witness :
    (∀ e ∈ [entryNew, entryOld], (e.published_parsed).isSome)
    ∧ (∀ e ∈ [entryNew, entryOld],
        is_interesting (get_categories id e) INTERESTED_CATEGORIES = false)
    ∧ [entryNew, entryOld].getLast? = some entryOld
    ∧ (fetch_and_send_news id INTERESTED_CATEGORIES sendOk [entryNew, entryOld]
        none).attempts.map Attempt.entry = [entryOld] :=
  ⟨by decide, by decide, by decide,
   (c1_fallback_oldest id INTERESTED_CATEGORIES sendOk [entryNew, entryOld]
     entryOld 1 (by decide) (by decide) (by decide) rfl).1⟩

/-- C2 counterexample: in the feed `[entryAI, entryNoDate]` the reversed
iteration meets `entryNoDate` (no parseable date) first; the cycle crashes
there, so the still-remaining valid and category-matching entry `entryAI`
is never attempted — the claim's promise that the rest of the payload keeps
being processed fails. -/
theorem c2_cex :
    (fetch_and_send_news id INTERESTED_CATEGORIES sendOk [entryAI, entryNoDate]
       none).attempts = []
    ∧ (fetch_and_send_news id INTERESTED_CATEGORIES sendOk [entryAI, entryNoDate]
        none).crashed = true
    ∧ is_interesting (get_categories id entryAI) INTERESTED_CATEGORIES = true := by
  refine ⟨by decide, by decide, by decide⟩

/-- C2 (amended): an entry lacking a parseable date raises inside the
per-entry loop, which aborts processing of the remaining entries of the
same payload: the cycle crashes at the bad entry, every attempt made
belongs to the prefix iterated before it, and the exception is caught by
the outer `run_bot` guard (error-backoff sleep), so the process — but not
the rest of the batch — survives. -/
theorem c2_bad_date_aborts (ch : String → String) (ints : Finset String)
    (send : Entry → SendResult) (w₀ : Option Int)
    (entries pre post : List Entry) (bad : Entry)
    (hsplit : entries.reverse = pre ++ bad :: post)
    (hbad : bad.published_parsed = none)
    (hpre : ∀ e ∈ pre, (e.published_parsed).isSome) :
    (fetch_and_send_news ch ints send entries w₀).crashed = true
    ∧ (∀ a ∈ (fetch_and_send_news ch ints send entries w₀).attempts,
        a.entry ∈ pre)
    ∧ (run_bot_step ⟨ch, ints, send, FetchOutcome.entries entries⟩ w₀).2
        = ERROR_SLEEP := by
  have hne : entries.isEmpty = false := by
    cases entries with
    | nil => simp at hsplit
    | cons _ _ => rfl
  have hcr := processAll_crashes ch ints send pre bad post ⟨w₀, false⟩ hbad hpre
  rw [← hsplit] at hcr
  have hc : (processAll ch ints send entries.reverse ⟨w₀, false⟩).crashed
      = true := hcr.1
  have hout := fetch_unfold_crash ch ints send entries w₀ hne hc
  refine ⟨by rw [hout], ?_, ?_⟩
  · intro a ha
    rw [hout] at ha
    exact hcr.2 a ha
  · unfold run_bot_step
    simp [hout]

/-- C2 witness: with the bad entry first in the reversed iteration, the
cycle crashes, no attempt is made, and `run_bot` falls to the error
backoff. -/
theorem c2_witness :
    [entryAI, entryNoDate].reverse = [] ++ entryNoDate :: [entryAI]
    ∧ entryNoDate.published_parsed = none
    ∧ (fetch_and_send_news id INTERESTED_CATEGORIES sendOk
        [entryAI, entryNoDate] none).crashed = true :=
  ⟨by decide, rfl,
   (c2_bad_date_aborts id INTERESTED_CATEGORIES sendOk none
     [entryAI, entryNoDate] [] [entryAI] entryNoDate (by decide) rfl
     (by decide)).1⟩

/-- C4: on a feed in strictly newest-first order whose entries all carry
parseable dates, every entry whose tags meet the allowed set and whose
`published_at` is strictly after the cycle-start watermark receives exactly
one delivery attempt in the cycle, and the cycle's delivery attempts are
made in strictly increasing `published_at` order (the loop iterates the
feed reversed, oldest to newest). -/
theorem c4_matched_delivery (ch : String → String) (ints : Finset String)
    (send : Entry → SendResult) (entries : List Entry) (w₀ : Option Int)
    (hsome : ∀ e ∈ entries, (e.published_parsed).isSome)
    (hsorted : (entries.filterMap Entry.published_parsed).Pairwise (· > ·)) :
    (∀ e ∈ entries, elig ch ints w₀ e = true →
       ((fetch_and_send_news ch ints send entries w₀).attempts.countP
          fun a => decide (a.entry = e)) = 1)
    ∧ ((fetch_and_send_news ch ints send entries w₀).attempts.map
         Attempt.date).Pairwise (· < ·) := by
  by_cases hniel : entries = []
  · subst hniel
    constructor
    · intro e he
      simp at he
    · simp [fetch_and_send_news]
  · have hne' : entries.isEmpty = false := by
      cases entries with
      | nil => exact absurd rfl hniel
      | cons _ _ => rfl
    have hsome_r : ∀ e ∈ entries.reverse, (e.published_parsed).isSome :=
      fun e he => hsome e (List.mem_reverse.mp he)
    have hmapfm : entries.filterMap Entry.published_parsed = entries.map dOf :=
      filterMap_pp_eq_map_dOf entries hsome
    have hmapfm_r : entries.reverse.filterMap Entry.published_parsed
        = entries.reverse.map dOf :=
      filterMap_pp_eq_map_dOf entries.reverse hsome_r
    have hsorted_r : (entries.reverse.filterMap Entry.published_parsed).Pairwise
        (· < ·) := by
      rw [hmapfm_r, List.map_reverse]
      refine List.pairwise_reverse.mpr ?_
      rw [← hmapfm]
      exact hsorted
    have hrun := processAll_run ch ints send w₀ entries.reverse ⟨w₀, false⟩
      hsome_r hsorted_r (Or.inl rfl)
    have hc : (processAll ch ints send entries.reverse ⟨w₀, false⟩).crashed
        = false := by rw [hrun]
    cases hAny : entries.reverse.any (elig ch ints w₀) with
    | true =>
      have hguard : (!(processAll ch ints send entries.reverse ⟨w₀, false⟩).st.foundInterested
          && (processAll ch ints send entries.reverse ⟨w₀, false⟩).st.watermark.isNone)
          = false := by
        rw [hrun]
        simp [hAny]
      have hatts : (fetch_and_send_news ch ints send entries w₀).attempts
          = (entries.reverse.filter (elig ch ints w₀)).map
              (fun e => ⟨e, dOf e, send e⟩) := by
        rw [fetch_unfold ch ints send entries w₀ hne' hc, hguard]
        simp only [Bool.false_eq_true, if_false]
        rw [hrun]
      have hnd_r : entries.reverse.Nodup := nodup_of_dates_pairwise
        (by rw [← hmapfm_r]; exact hsorted_r)
      constructor
      · intro e he helig
        rw [hatts, List.countP_map]
        rw [show ((fun a => decide (a.entry = e))
              ∘ (fun e' => (⟨e', dOf e', send e'⟩ : Attempt)))
            = fun e' => decide (e' = e) from rfl]
        exact countP_eq_one_of_nodup_mem (hnd_r.filter _)
          (List.mem_filter.mpr ⟨List.mem_reverse.mpr he, helig⟩)
      · rw [hatts, List.map_map]
        rw [show (Attempt.date ∘ fun e => (⟨e, dOf e, send e⟩ : Attempt))
            = dOf from rfl]
        refine List.pairwise_map.mpr ?_
        have hpr : entries.reverse.Pairwise (fun a b => dOf a < dOf b) :=
          List.pairwise_map.mp (by rw [← hmapfm_r]; exact hsorted_r)
        exact hpr.filter _
    | false =>
      have hL : entries.reverse.filter (elig ch ints w₀) = [] := by
        rw [List.filter_eq_nil_iff]
        intro a ha hcontra
        have : entries.reverse.any (elig ch ints w₀) = true :=
          List.any_eq_true.mpr ⟨a, ha, hcontra⟩
        rw [hAny] at this
        exact Bool.false_ne_true this
      constructor
      · intro e he helig
        exfalso
        have : entries.reverse.any (elig ch ints w₀) = true :=
          List.any_eq_true.mpr ⟨e, List.mem_reverse.mpr he, helig⟩
        rw [hAny] at this
        exact Bool.false_ne_true this
      · have hattsmain : (processAll ch ints send entries.reverse
            ⟨w₀, false⟩).attempts = [] := by
          rw [hrun]
          simp [hL]
        rw [fetch_unfold ch ints send entries w₀ hne' hc]
        cases hg : (!(processAll ch ints send entries.reverse ⟨w₀, false⟩).st.foundInterested
            && (processAll ch ints send entries.reverse ⟨w₀, false⟩).st.watermark.isNone) with
        | true =>
          simp only [if_true]
          rcases fallback_cases send entries.reverse
            (processAll ch ints send entries.reverse ⟨w₀, false⟩).st with h0 | ⟨a, h1⟩
          · simp [hattsmain, h0]
          · simp [hattsmain, h1]
        | false =>
          simp only [Bool.false_eq_true, if_false]
          simp [hattsmain]

/-- C4 witness: with a sorted three-entry feed, the matching entries each
get exactly one attempt and the attempts run oldest to newest. -/
theorem c4_witness :
    (∀ e ∈ [entryRobotics, entryAI, entrySports], (e.published_parsed).isSome)
    ∧ ([entryRobotics, entryAI, entrySports].filterMap
         Entry.published_parsed).Pairwise (· > ·)
    ∧ elig id INTERESTED_CATEGORIES none entryAI = true
    ∧ ((fetch_and_send_news id INTERESTED_CATEGORIES sendOk
          [entryRobotics, entryAI, entrySports] none).attempts.countP
         fun a => decide (a.entry = entryAI)) = 1
    ∧ ((fetch_and_send_news id INTERESTED_CATEGORIES sendOk
          [entryRobotics, entryAI, entrySports] none).attempts.map
         Attempt.date).Pairwise (· < ·) :=
  ⟨by decide, by decide, by decide,
   (c4_matched_delivery id INTERESTED_CATEGORIES sendOk
      [entryRobotics, entryAI, entrySports] none (by decide) (by decide)).1
     entryAI (by decide) (by decide),
   (c4_matched_delivery id INTERESTED_CATEGORIES sendOk
      [entryRobotics, entryAI, entrySports] none (by decide) (by decide)).2⟩

/-- C5 counterexample: a single matching entry whose send fails.  The first
run attempts it but does not advance the watermark, so a second run from
the watermark the first run ended with attempts it again — not the zero
new delivery attempts the claim states. -/
theorem c5_cex :
    (fetch_and_send_news id INTERESTED_CATEGORIES sendFail [entryAI]
       ((fetch_and_send_news id INTERESTED_CATEGORIES sendFail [entryAI]
          none).watermark)).attempts ≠ [] := by
  decide

/-- C5 (amended): when every send of the first run is acknowledged ok (and
the feed is strictly newest-first with parseable dates), re-running the
cycle against the unchanged feed from the watermark the first run ended
with triggers zero new delivery attempts. -/
theorem c5_idempotent (ch : String → String) (ints : Finset String)
    (send : Entry → SendResult) (entries : List Entry) (w₀ : Option Int)
    (hsome : ∀ e ∈ entries, (e.published_parsed).isSome)
    (hsorted : (entries.filterMap Entry.published_parsed).Pairwise (· > ·))
    (hok : ∀ e, send e = SendResult.ok) :
    (fetch_and_send_news ch ints send entries
       (fetch_and_send_news ch ints send entries w₀).watermark).attempts
      = [] := by
  by_cases hniel : entries = []
  · subst hniel
    simp [fetch_and_send_news]
  · have hne' : entries.isEmpty = false := by
      cases entries with
      | nil => exact absurd rfl hniel
      | cons _ _ => rfl
    have hsome_r : ∀ e ∈ entries.reverse, (e.published_parsed).isSome :=
      fun e he => hsome e (List.mem_reverse.mp he)
    have hmapfm : entries.filterMap Entry.published_parsed = entries.map dOf :=
      filterMap_pp_eq_map_dOf entries hsome
    have hmapfm_r : entries.reverse.filterMap Entry.published_parsed
        = entries.reverse.map dOf :=
      filterMap_pp_eq_map_dOf entries.reverse hsome_r
    have hsorted_r : (entries.reverse.filterMap Entry.published_parsed).Pairwise
        (· < ·) := by
      rw [hmapfm_r, List.map_reverse]
      refine List.pairwise_reverse.mpr ?_
      rw [← hmapfm]
      exact hsorted
    have hppdOf : ∀ e ∈ entries.reverse, e.published_parsed = some (dOf e) :=
      fun e he => pp_eq_some_dOf (hsome_r e he)
    have hrun1 := processAll_run ch ints send w₀ entries.reverse ⟨w₀, false⟩
      hsome_r hsorted_r (Or.inl rfl)
    have hc1 : (processAll ch ints send entries.reverse ⟨w₀, false⟩).crashed
        = false := by rw [hrun1]
    cases hLnil : entries.reverse.filter (elig ch ints w₀) with
    | cons f0 t0 =>
      have hLne : entries.reverse.filter (elig ch ints w₀) ≠ [] := by
        rw [hLnil]
        exact List.cons_ne_nil f0 t0
      have hf0mem : f0 ∈ entries.reverse.filter (elig ch ints w₀) := by
        rw [hLnil]
        exact List.mem_cons_self f0 t0
      have hAny : entries.reverse.any (elig ch ints w₀) = true :=
        List.any_eq_true.mpr ⟨f0, (List.mem_filter.mp hf0mem).1,
          (List.mem_filter.mp hf0mem).2⟩
      have hguard : (!(processAll ch ints send entries.reverse ⟨w₀, false⟩).st.foundInterested
          && (processAll ch ints send entries.reverse ⟨w₀, false⟩).st.watermark.isNone)
          = false := by
        rw [hrun1]
        simp [hAny]
      have hw1 : (fetch_and_send_news ch ints send entries w₀).watermark
          = some (dOf ((entries.reverse.filter (elig ch ints w₀)).getLast hLne)) := by
        rw [fetch_unfold ch ints send entries w₀ hne' hc1, hguard]
        simp only [Bool.false_eq_true, if_false]
        rw [hrun1]
        exact wmAfter_map_ok send hok _ w₀ hLne
      have hLpair : ((entries.reverse.filter (elig ch ints w₀)).map dOf).Pairwise
          (· < ·) := by
        have hpr : entries.reverse.Pairwise (fun a b => dOf a < dOf b) :=
          List.pairwise_map.mp (by rw [← hmapfm_r]; exact hsorted_r)
        exact List.pairwise_map.mpr (hpr.filter _)
      have hglmem : (entries.reverse.filter (elig ch ints w₀)).getLast hLne
          ∈ entries.reverse.filter (elig ch ints w₀) := List.getLast_mem hLne
      have hglr : (entries.reverse.filter (elig ch ints w₀)).getLast hLne
          ∈ entries.reverse := (List.mem_filter.mp hglmem).1
      have hgl_ts : timestampEligible w₀
          (dOf ((entries.reverse.filter (elig ch ints w₀)).getLast hLne))
          = true := by
        have hglelig := (List.mem_filter.mp hglmem).2
        rw [elig_some ch ints w₀ (hppdOf _ hglr)] at hglelig
        exact (Bool.and_eq_true _ _).mp hglelig |>.1
      have hnone2 : ∀ e ∈ entries.reverse,
          elig ch ints
            (some (dOf ((entries.reverse.filter (elig ch ints w₀)).getLast hLne)))
            e = false := by
        intro e he
        rw [elig_some ch ints _ (hppdOf e he)]
        cases hint : is_interesting (get_categories ch e) ints with
        | false => simp [hint]
        | true =>
          have hxle : dOf e
              ≤ dOf ((entries.reverse.filter (elig ch ints w₀)).getLast hLne) := by
            cases hts0 : timestampEligible w₀ (dOf e) with
            | true =>
              have hxelig : elig ch ints w₀ e = true := by
                rw [elig_some ch ints w₀ (hppdOf e he), hts0, hint]
                rfl
              exact le_dOf_getLast _ hLpair hLne e
                (List.mem_filter.mpr ⟨he, hxelig⟩)
            | false => exact ts_le_of_false_true hts0 hgl_ts
          rw [ts_false_of_le hxle]
          rfl
      rw [hw1]
      exact fetch_no_elig_attempts ch ints send entries _ _ rfl hsome_r
        hsorted_r hnone2
    | nil =>
      have hnoel : ∀ e ∈ entries.reverse, elig ch ints w₀ e = false := by
        intro e he
        cases h' : elig ch ints w₀ e with
        | false => rfl
        | true =>
          have hmem : e ∈ entries.reverse.filter (elig ch ints w₀) :=
            List.mem_filter.mpr ⟨he, h'⟩
          rw [hLnil] at hmem
          exact absurd hmem (List.not_mem_nil e)
      obtain hwnone | ⟨wv, hwsome⟩ : w₀ = none ∨ ∃ v, w₀ = some v := by
        cases w₀ with
        | none => exact Or.inl rfl
        | some v => exact Or.inr ⟨v, rfl⟩
      · -- w₀ unset: the fallback ran and set the watermark to the oldest date
        subst hwnone
        have hnoint : ∀ e ∈ entries.reverse,
            is_interesting (get_categories ch e) ints = false := by
          intro e he
          have h1 := hnoel e he
          rw [elig_some ch ints none (hppdOf e he)] at h1
          simpa [timestampEligible] using h1
        have hmain : processAll ch ints send entries.reverse ⟨none, false⟩
            = ⟨⟨none, false⟩, [], false, 0⟩ :=
          processAll_no_interesting ch ints send entries.reverse ⟨none, false⟩
            hsome_r hnoint
        obtain ⟨f, t, hrev⟩ : ∃ f t, entries.reverse = f :: t := by
          cases hr : entries.reverse with
          | nil => exact absurd (List.reverse_eq_nil_iff.mp hr) hniel
          | cons f t => exact ⟨f, t, rfl⟩
        have hfmem : f ∈ entries.reverse := by
          rw [hrev]
          exact List.mem_cons_self f t
        have hfb : fallback_send send entries.reverse ⟨none, false⟩
            = ⟨⟨some (dOf f), false⟩, [⟨f, dOf f, send f⟩], false, 1⟩ := by
          rw [hrev]
          unfold fallback_send
          simp [hppdOf f hfmem, hok f]
        have hguard : (!(processAll ch ints send entries.reverse ⟨none, false⟩).st.foundInterested
            && (processAll ch ints send entries.reverse ⟨none, false⟩).st.watermark.isNone)
            = true := by
          rw [hmain]
          rfl
        have hw1 : (fetch_and_send_news ch ints send entries none).watermark
            = some (dOf f) := by
          rw [fetch_unfold ch ints send entries none hne' hc1, hguard]
          simp only [if_true, hmain]
          rw [hfb]
        rw [hw1]
        refine fetch_no_elig_attempts ch ints send entries _ _ rfl hsome_r
          hsorted_r ?_
        intro e he
        rw [elig_some ch ints _ (hppdOf e he), hnoint e he]
        simp
      · -- w₀ already set: nothing was attempted and the watermark is kept
        have hAnyF : entries.reverse.any (elig ch ints w₀) = false := by
          cases hA : entries.reverse.any (elig ch ints w₀) with
          | false => rfl
          | true =>
            obtain ⟨e, he, hex⟩ := List.any_eq_true.mp hA
            rw [hnoel e he] at hex
            exact absurd hex Bool.false_ne_true
        have hguard : (!(processAll ch ints send entries.reverse ⟨w₀, false⟩).st.foundInterested
            && (processAll ch ints send entries.reverse ⟨w₀, false⟩).st.watermark.isNone)
            = false := by
          rw [hrun1]
          simp only [hLnil, List.map_nil, wmAfter_nil]
          rw [hwsome]
          simp only [Option.isNone_some, Bool.and_false]
        have hw1 : (fetch_and_send_news ch ints send entries w₀).watermark
            = some wv := by
          rw [fetch_unfold ch ints send entries w₀ hne' hc1, hguard]
          simp only [Bool.false_eq_true, if_false]
          rw [hrun1]
          simp only [hLnil, List.map_nil, wmAfter_nil]
          exact hwsome
        rw [hw1]
        refine fetch_no_elig_attempts ch ints send entries _ wv rfl hsome_r
          hsorted_r ?_
        intro e he
        rw [← hwsome]
        exact hnoel e he

/-- C5 witness: a two-entry sorted feed with all sends acknowledged — the
second run makes no attempt. -/
theorem c5_witness :
    (∀ e ∈ [entryAI, entrySports], (e.published_parsed).isSome)
    ∧ ([entryAI, entrySports].filterMap Entry.published_parsed).Pairwise
        (· > ·)
    ∧ (∀ e, sendOk e = SendResult.ok)
    ∧ (fetch_and_send_news id INTERESTED_CATEGORIES sendOk
        [entryAI, entrySports]
        ((fetch_and_send_news id INTERESTED_CATEGORIES sendOk
           [entryAI, entrySports] none).watermark)).attempts = [] :=
  ⟨by decide, by decide, fun _ => rfl,
   c5_idempotent id INTERESTED_CATEGORIES sendOk [entryAI, entrySports] none
     (by decide) (by decide) (fun _ => rfl)⟩

end TCBot
